import Mathlib

set_option maxHeartbeats 1000000

/-!  Verification development for an STV-style election tabulator
     (`plurality_scores`, `stv`) and the manipulation-search engine built on
     top of it (`prefers_over`, `build_strategic_ballot_from_ranking`,
     `apply_manipulation`, `find_smallest_manipulating_coalition`).

     The source's floating-point score arithmetic is modelled by exact
     rational arithmetic (`ℚ`), keeping the source's literal comparison
     tolerance `1e-9`.  Python's `set(candidates)` is modelled by `List.dedup`
     (any stable deduplication; identical to the input for duplicate-free
     candidate lists, the only ones produced by the dataset reader).
     Python's `None` results are modelled by `Option`; an uncaught `TypeError`
     (`len(None)`) is modelled by `Except.error ()`. -/

/-- A ranking: an ordered list of tie groups of candidate ids. -/
abbrev Ranking := List (List ℕ)

/-- A ballot type: a voter weight together with a ranking. -/
abbrev Ballot := ℕ × Ranking

/-- The absolute comparison tolerance `1e-9` the source uses on scores. -/
def tol : ℚ := 1 / 1000000000

/-- `plurality_scores`: the still-remaining members of one tie group
    (`[c for c in group if c in remaining]`). -/
def groupRem (remaining : List ℕ) (g : List ℕ) : List ℕ :=
  g.filter (fun c => decide (c ∈ remaining))

/-- `plurality_scores`: the first tie group of a ranking that still contains a
    remaining candidate, restricted to its remaining members (the loop with
    `break` over the groups). -/
def firstNonemptyRem (remaining : List ℕ) (ranking : Ranking) : Option (List ℕ) :=
  (ranking.map (groupRem remaining)).find? (fun g => !g.isEmpty)

/-- `plurality_scores`: the score a single ballot type contributes to
    candidate `c` (`share = weight / len(group_rem)`, added once per
    occurrence of `c` in `group_rem`). -/
def ballotScore (remaining : List ℕ) (b : Ballot) (c : ℕ) : ℚ :=
  match firstNonemptyRem remaining b.2 with
  | some g => (g.count c : ℚ) * ((b.1 : ℚ) / (g.length : ℚ))
  | none => 0

/-- `plurality_scores(remaining, ballots)` as a function from candidates to
    scores (the Python dict, with default `0.0` off `remaining`). -/
def plurality_scores (remaining : List ℕ) (ballots : List Ballot) (c : ℕ) : ℚ :=
  (ballots.map (fun b => ballotScore remaining b c)).sum

/-- Python's `min` over a non-empty sequence (0 for the empty list, a case the
    source never evaluates). -/
def listMin : List ℚ → ℚ
  | [] => 0
  | x :: xs => xs.foldl min x

/-- The candidates removed in one round of `stv`: all remaining candidates
    whose score is within `1e-9` of the minimum score. -/
def roundLosers (ballots : List Ballot) (remaining : List ℕ) : List ℕ :=
  let m := listMin (remaining.map (plurality_scores remaining ballots))
  remaining.filter (fun c => decide (|plurality_scores remaining ballots c - m| < tol))

/-- The `while remaining:` loop of `stv`.  `fuel` bounds the number of rounds;
    `stv` supplies `|remaining|`, which is sufficient because every round
    removes at least one candidate (proved below), so the fuel-exhaustion
    branch coincides with the loop-exit branch. -/
def stvAux (ballots : List Ballot) :
    ℕ → List ℕ → List ℕ → Option (List ℕ) → Option (List ℕ) × List ℕ
  | 0, _, elim, last => (last, elim)
  | fuel + 1, remaining, elim, last =>
    if remaining.isEmpty then (last, elim)
    else
      let losers := roundLosers ballots remaining
      stvAux ballots fuel (remaining.filter (fun c => decide (c ∉ losers)))
        (elim ++ losers) (some losers)

/-- `stv(candidates, ballots)`: returns `(winners, elimination_order)`.
    `winners` is `last_losers`, which is Python `None` (here `none`) when the
    loop never runs; the elimination order is the flat list the code builds by
    appending each loser individually. -/
def stv (candidates : List ℕ) (ballots : List Ballot) :
    Option (List ℕ) × List ℕ :=
  stvAux ballots candidates.dedup.length candidates.dedup [] none

/-- Round-group view of the same elimination loop, following the spec's words:
    the co-lowest candidates removed in one round are appended to the
    elimination order as a single group.  Used to compare the code's flat
    elimination order with the spec's grouped description. -/
def stvGroupedAux (ballots : List Ballot) :
    ℕ → List ℕ → List (List ℕ) → List (List ℕ)
  | 0, _, gelim => gelim
  | fuel + 1, remaining, gelim =>
    if remaining.isEmpty then gelim
    else
      let losers := roundLosers ballots remaining
      stvGroupedAux ballots fuel (remaining.filter (fun c => decide (c ∉ losers)))
        (gelim ++ [losers])

/-- The grouped elimination order of the spec's description of `stv`. -/
def stvGrouped (candidates : List ℕ) (ballots : List Ballot) : List (List ℕ) :=
  stvGroupedAux ballots candidates.dedup.length candidates.dedup []

/-- `candidate_position(ranking, cand)`: index of the first tie group
    containing the candidate, Python `None` when absent. -/
def candidate_position (ranking : Ranking) (cand : ℕ) : Option ℕ :=
  ranking.findIdx? (fun g => decide (cand ∈ g))

/-- `prefers_over(ranking, cand1, cand2)`: candidate 1 strictly preferred
    over candidate 2. -/
def prefers_over (ranking : Ranking) (cand1 cand2 : ℕ) : Bool :=
  match candidate_position ranking cand1, candidate_position ranking cand2 with
  | none, none => false
  | none, some _ => false
  | some _, none => true
  | some pos1, some pos2 => decide (pos1 < pos2)

/-- One step of the duplicate-skipping flattening loops of
    `build_strategic_ballot_from_ranking` (`if c not in flat: flat.append(c)`). -/
def flatStep (acc : List ℕ) (c : ℕ) : List ℕ :=
  if c ∈ acc then acc else acc ++ [c]

/-- First-occurrence flattening of a list of candidates, as the source's
    append-if-absent loop produces it. -/
def flattenFirst (l : List ℕ) : List ℕ :=
  l.foldl flatStep []

/-- `build_strategic_ballot_from_ranking(ranking, target, winner, all_candidates)`. -/
def build_strategic_ballot_from_ranking (ranking : Ranking) (target winner : ℕ)
    (all_candidates : List ℕ) : Ranking :=
  let flat1 := ranking.foldl (fun acc g => g.foldl flatStep acc) []
  let flat2 := all_candidates.foldl flatStep flat1
  let flat3 := if target ∈ flat2 then flat2.erase target else flat2
  let flat4 := target :: flat3
  let flat5 := if winner ∈ flat4 then flat4.erase winner else flat4
  (flat5 ++ [winner]).map (fun c => [c])

/-- The indexed loop of `apply_manipulation`: the ballot type whose running
    index equals `type_index` has its weight reduced by `k` (dropped when the
    remainder is not positive); all others pass through. -/
def replaceType (type_index k : ℕ) : ℕ → List Ballot → List Ballot
  | _, [] => []
  | idx, (w, r) :: rest =>
    if idx = type_index then
      (if w - k > 0 then [(w - k, r)] else []) ++ replaceType type_index k (idx + 1) rest
    else (w, r) :: replaceType type_index k (idx + 1) rest

/-- `apply_manipulation(ballots, type_index, k, strategic_ballot)`. -/
def apply_manipulation (ballots : List Ballot) (type_index k : ℕ)
    (strategic_ballot : Ranking) : List Ballot :=
  replaceType type_index k 0 ballots ++ [(k, strategic_ballot)]

/-- The result record of `find_smallest_manipulating_coalition`. -/
structure MResult where
  orig_winner : ℕ
  coalition_size : ℕ
  target : ℕ
  type_index : ℕ
  true_ranking : Ranking
  strategic_ballot : Ranking
  new_elim_order : List ℕ
deriving DecidableEq, Repr

/-- The best-result update of the search
    (`if best_k is None or k < best_k`). -/
def updateBest (best : Option MResult) (r : MResult) : Option MResult :=
  match best with
  | none => some r
  | some b => if r.coalition_size < b.coalition_size then some r else some b

/-- The inner `for k in range(1, weight + 1)` loop of the search, over an
    explicit list of coalition sizes: re-tabulate under the manipulated
    ballots and stop at the first `k` whose winner list is exactly the
    target.  `Except.error ()` models the `TypeError` Python would raise on
    `len(None)` (winners `None` occurs only for an empty candidate set). -/
def searchKs (candidates : List ℕ) (ballots : List Ballot) (target ti : ℕ)
    (strat : Ranking) : List ℕ → Except Unit (Option (ℕ × List ℕ))
  | [] => .ok none
  | k :: ks =>
    match (stv candidates (apply_manipulation ballots ti k strat)).1 with
    | none => .error ()
    | some ws =>
      if ws.length = 1 ∧ ws.headI = target then
        .ok (some (k, (stv candidates (apply_manipulation ballots ti k strat)).2))
      else searchKs candidates ballots target ti strat ks

/-- The middle `for type_index, (weight, ranking) in enumerate(ballots)` loop
    of the search, running over the suffix of `ballots` that starts at index
    `ti`. -/
def searchTypes (candidates : List ℕ) (ow target : ℕ) (ballots : List Ballot) :
    ℕ → List Ballot → Option MResult → Except Unit (Option MResult)
  | _, [], best => .ok best
  | ti, (w, r) :: rest, best =>
    if prefers_over r target ow then
      match searchKs candidates ballots target ti
          (build_strategic_ballot_from_ranking r target ow candidates)
          (List.range' 1 w) with
      | .error e => .error e
      | .ok none => searchTypes candidates ow target ballots (ti + 1) rest best
      | .ok (some (k, elim)) =>
        searchTypes candidates ow target ballots (ti + 1) rest
          (updateBest best
            ⟨ow, k, target, ti, r,
              build_strategic_ballot_from_ranking r target ow candidates, elim⟩)
    else searchTypes candidates ow target ballots (ti + 1) rest best

/-- The outer `for target in candidates` loop of the search. -/
def searchTargets (candidates : List ℕ) (ballots : List Ballot) (ow : ℕ) :
    List ℕ → Option MResult → Except Unit (Option MResult)
  | [], best => .ok best
  | t :: ts, best =>
    if t = ow then searchTargets candidates ballots ow ts best
    else
      match searchTypes candidates ow t ballots 0 ballots best with
      | .error e => .error e
      | .ok best' => searchTargets candidates ballots ow ts best'

/-- `find_smallest_manipulating_coalition(candidates, ballots)`.
    `Except.ok none` models the Python `None` sentinel; `Except.error ()`
    models the uncaught `TypeError` raised by `len(orig_winners)` when `stv`
    returned `None` winners (empty candidate set). -/
def find_smallest_manipulating_coalition (candidates : List ℕ)
    (ballots : List Ballot) : Except Unit (Option MResult) :=
  match (stv candidates ballots).1 with
  | none => .error ()
  | some orig_winners =>
    if orig_winners.length ≠ 1 then .ok none
    else searchTargets candidates ballots orig_winners.headI candidates none

/-- Default ballot used by `List.getD` in statements about ballot indices. -/
def dBallot : Ballot := (0, [])

/-- The strategic ranking the search builds for target `t` from the ballot
    type at index `i`. -/
def stratOf (candidates : List ℕ) (ballots : List Ballot) (ow t i : ℕ) : Ranking :=
  build_strategic_ballot_from_ranking (ballots.getD i dBallot).2 t ow candidates

/-- Eligibility of a coalition choice `(t, i, k)` for the search against
    incumbent winner `ow`: the target is a candidate other than the incumbent,
    the ballot-type index is in range, the type's sincere ranking strictly
    prefers the target over the incumbent, and `1 ≤ k ≤ weight`. -/
def Elig (candidates : List ℕ) (ballots : List Ballot) (ow t i k : ℕ) : Prop :=
  t ∈ candidates ∧ t ≠ ow ∧ i < ballots.length ∧
    prefers_over (ballots.getD i dBallot).2 t ow = true ∧
    1 ≤ k ∧ k ≤ (ballots.getD i dBallot).1

/-- Success of a coalition choice `(t, i, k)`: moving `k` voters of type `i`
    to the strategic ranking built for `(t, i)` makes the winner list exactly
    `[t]`. -/
def Succ (candidates : List ℕ) (ballots : List Ballot) (ow t i k : ℕ) : Prop :=
  (stv candidates (apply_manipulation ballots i k (stratOf candidates ballots ow t i))).1
    = some [t]

/-- Well-formedness of a search result record relative to the search inputs:
    its fields are the data of an eligible, successful coalition choice. -/
def GoodRes (candidates : List ℕ) (ballots : List Ballot) (ow : ℕ) (r : MResult) : Prop :=
  r.orig_winner = ow ∧
  Elig candidates ballots ow r.target r.type_index r.coalition_size ∧
  r.true_ranking = (ballots.getD r.type_index dBallot).2 ∧
  r.strategic_ballot = stratOf candidates ballots ow r.target r.type_index ∧
  Succ candidates ballots ow r.target r.type_index r.coalition_size ∧
  r.new_elim_order =
    (stv candidates (apply_manipulation ballots r.type_index r.coalition_size
      r.strategic_ballot)).2

/-- A ballot is non-exhausted for a round when its ranking contains at least
    one remaining candidate in some tie group. -/
def nonExhausted (remaining : List ℕ) (ranking : Ranking) : Bool :=
  ranking.any (fun g => g.any (fun c => decide (c ∈ remaining)))

/-! ### Helper lemmas about one tabulation round -/

lemma foldl_min_mem (xs : List ℚ) (x : ℚ) : xs.foldl min x ∈ x :: xs := by
  induction xs generalizing x with
  | nil => simp
  | cons y ys ih =>
    simp only [List.foldl_cons]
    have h := ih (min x y)
    rw [List.mem_cons] at h
    rcases h with h | h
    · rw [h]
      rcases min_choice x y with hc | hc <;> rw [hc] <;> simp
    · simp [h]

lemma listMin_mem (l : List ℚ) (h : l ≠ []) : listMin l ∈ l := by
  cases l with
  | nil => cases h rfl
  | cons x xs => simpa [listMin] using foldl_min_mem xs x

lemma exists_mem_roundLosers (ballots : List Ballot) (remaining : List ℕ)
    (h : remaining ≠ []) :
    ∃ c ∈ remaining, c ∈ roundLosers ballots remaining := by
  have hmap : remaining.map (plurality_scores remaining ballots) ≠ [] := by
    simpa using h
  obtain ⟨c, hc, hscore⟩ := List.mem_map.mp (listMin_mem _ hmap)
  refine ⟨c, hc, List.mem_filter.mpr ⟨hc, ?_⟩⟩
  rw [hscore]
  simp [tol]

lemma roundLosers_ne_nil (ballots : List Ballot) (remaining : List ℕ)
    (h : remaining ≠ []) : roundLosers ballots remaining ≠ [] := by
  obtain ⟨c, _, hc⟩ := exists_mem_roundLosers ballots remaining h
  exact fun hnil => by simp [hnil] at hc

lemma roundLosers_subset (ballots : List Ballot) (remaining : List ℕ) :
    ∀ c ∈ roundLosers ballots remaining, c ∈ remaining := by
  intro c hc
  exact (List.mem_filter.mp hc).1

lemma newRemaining_length_lt (ballots : List Ballot) (remaining : List ℕ)
    (h : remaining ≠ []) :
    (remaining.filter (fun c => decide (c ∉ roundLosers ballots remaining))).length
      < remaining.length := by
  rw [List.length_filter_lt_length_iff_exists]
  obtain ⟨c, hc, hcl⟩ := exists_mem_roundLosers ballots remaining h
  exact ⟨c, hc, by simp [hcl]⟩

lemma losers_append_newRemaining_perm (ballots : List Ballot) (remaining : List ℕ) :
    List.Perm
      (roundLosers ballots remaining ++
        remaining.filter (fun c => decide (c ∉ roundLosers ballots remaining)))
      remaining := by
  set m := listMin (remaining.map (plurality_scores remaining ballots)) with hm
  set p : ℕ → Bool :=
    fun c => decide (|plurality_scores remaining ballots c - m| < tol) with hp
  have hcong : remaining.filter (fun c => decide (c ∉ roundLosers ballots remaining))
      = remaining.filter (fun c => !(p c)) := by
    refine List.filter_congr ?_
    intro c hc
    by_cases hcl : c ∈ roundLosers ballots remaining
    · have hpt : p c = true := (List.mem_filter.mp hcl).2
      simp [hcl, hpt]
    · have hpf : ¬ p c = true := fun hpc => hcl (List.mem_filter.mpr ⟨hc, hpc⟩)
      simp [hcl, hpf]
  rw [hcong]
  have : roundLosers ballots remaining = remaining.filter p := rfl
  rw [this]
  exact List.filter_append_perm p remaining

/-! ### The elimination loop: coverage, grouping, and the flat/grouped bridge -/

lemma stvGroupedAux_nil (ballots : List Ballot) (fuel : ℕ) (g : List (List ℕ)) :
    stvGroupedAux ballots fuel [] g = g := by
  cases fuel <;> simp [stvGroupedAux]

lemma stvGroupedAux_spec (ballots : List Ballot) :
    ∀ (fuel : ℕ) (remaining : List ℕ) (g : List (List ℕ)),
      remaining.length ≤ fuel →
      ∃ gs, stvGroupedAux ballots fuel remaining g = g ++ gs ∧
        List.Perm gs.flatten remaining ∧
        (∀ x ∈ gs, x ≠ []) ∧
        (remaining ≠ [] → gs ≠ []) := by
  intro fuel
  induction fuel with
  | zero =>
    intro remaining g hlen
    have hrem : remaining = [] := List.eq_nil_of_length_eq_zero (Nat.le_zero.mp hlen)
    subst hrem
    exact ⟨[], by simp [stvGroupedAux], by simp, by simp, fun h => absurd rfl h⟩
  | succ fuel ih =>
    intro remaining g hlen
    by_cases hrem : remaining = []
    · subst hrem
      exact ⟨[], by simp [stvGroupedAux], by simp, by simp, fun h => absurd rfl h⟩
    · have hne : remaining.isEmpty = false := by
        simpa [List.isEmpty_iff] using hrem
      have hstep : stvGroupedAux ballots (fuel + 1) remaining g =
          stvGroupedAux ballots fuel
            (remaining.filter (fun c => decide (c ∉ roundLosers ballots remaining)))
            (g ++ [roundLosers ballots remaining]) := by
        simp [stvGroupedAux, hne]
      have hlt := newRemaining_length_lt ballots remaining hrem
      have hlen' :
          (remaining.filter
            (fun c => decide (c ∉ roundLosers ballots remaining))).length ≤ fuel :=
        Nat.lt_succ_iff.mp (Nat.lt_of_lt_of_le hlt hlen)
      obtain ⟨gs', heq, hperm, hnonempty, _⟩ := ih _ (g ++ [roundLosers ballots remaining]) hlen'
      refine ⟨roundLosers ballots remaining :: gs', ?_, ?_, ?_, ?_⟩
      · rw [hstep, heq]
        simp
      · have h1 : List.Perm ((roundLosers ballots remaining :: gs').flatten)
            (roundLosers ballots remaining ++
              remaining.filter (fun c => decide (c ∉ roundLosers ballots remaining))) := by
          simpa using List.Perm.append_left (roundLosers ballots remaining) hperm
        exact h1.trans (losers_append_newRemaining_perm ballots remaining)
      · intro x hx
        rcases List.mem_cons.mp hx with hx | hx
        · rw [hx]; exact roundLosers_ne_nil ballots remaining hrem
        · exact hnonempty x hx
      · intro _
        simp

lemma stvAux_grouped (ballots : List Ballot) :
    ∀ (fuel : ℕ) (remaining : List ℕ) (g : List (List ℕ)),
      stvAux ballots fuel remaining g.flatten g.getLast? =
        ((stvGroupedAux ballots fuel remaining g).getLast?,
          (stvGroupedAux ballots fuel remaining g).flatten) := by
  intro fuel
  induction fuel with
  | zero => intro remaining g; simp [stvAux, stvGroupedAux]
  | succ fuel ih =>
    intro remaining g
    by_cases hrem : remaining.isEmpty
    · simp [stvAux, stvGroupedAux, hrem]
    · have hne : remaining.isEmpty = false := by simpa using hrem
      have hflat : (g ++ [roundLosers ballots remaining]).flatten
          = g.flatten ++ roundLosers ballots remaining := by simp
      have hlast : (g ++ [roundLosers ballots remaining]).getLast?
          = some (roundLosers ballots remaining) := List.getLast?_concat _
      have := ih (remaining.filter (fun c => decide (c ∉ roundLosers ballots remaining)))
        (g ++ [roundLosers ballots remaining])
      rw [hflat, hlast] at this
      simpa [stvAux, stvGroupedAux, hne] using this

lemma stv_eq_grouped (candidates : List ℕ) (ballots : List Ballot) :
    stv candidates ballots =
      ((stvGrouped candidates ballots).getLast?, (stvGrouped candidates ballots).flatten) := by
  have h := stvAux_grouped ballots candidates.dedup.length candidates.dedup []
  simpa [stv, stvGrouped] using h

lemma stv_nil (ballots : List Ballot) : stv [] ballots = (none, []) := by
  simp [stv, stvAux]

/-- The grouped elimination order is the `[]`-prefixed run of the master
    lemma: its flattening is a permutation of the deduplicated candidate
    list, its groups are non-empty, and it is non-empty when there are
    candidates. -/
lemma stvGrouped_spec (candidates : List ℕ) (ballots : List Ballot) :
    List.Perm (stvGrouped candidates ballots).flatten candidates.dedup ∧
      (∀ x ∈ stvGrouped candidates ballots, x ≠ []) ∧
      (candidates ≠ [] → stvGrouped candidates ballots ≠ []) := by
  obtain ⟨gs, heq, hperm, hnon, hne⟩ :=
    stvGroupedAux_spec ballots candidates.dedup.length candidates.dedup [] le_rfl
  have hgs : stvGrouped candidates ballots = gs := by simpa [stvGrouped] using heq
  rw [hgs]
  refine ⟨hperm, hnon, fun hc => hne ?_⟩
  simpa [List.dedup_eq_nil] using hc

lemma stv_winners_eq_getLast (candidates : List ℕ) (ballots : List Ballot) :
    (stv candidates ballots).1 = (stvGrouped candidates ballots).getLast? := by
  rw [stv_eq_grouped]

lemma stv_elim_eq_flatten (candidates : List ℕ) (ballots : List Ballot) :
    (stv candidates ballots).2 = (stvGrouped candidates ballots).flatten := by
  rw [stv_eq_grouped]

lemma stv_winners_some (candidates : List ℕ) (ballots : List Ballot)
    (h : candidates ≠ []) :
    ∃ w, (stv candidates ballots).1 = some w ∧ w ≠ [] := by
  obtain ⟨_, hnon, hne⟩ := stvGrouped_spec candidates ballots
  have hg := hne h
  refine ⟨(stvGrouped candidates ballots).getLast hg, ?_, ?_⟩
  · rw [stv_winners_eq_getLast]
    exact List.getLast?_eq_getLast _ hg
  · exact hnon _ (List.getLast_mem hg)

lemma stv_winners_none_iff (candidates : List ℕ) (ballots : List Ballot) :
    (stv candidates ballots).1 = none ↔ candidates = [] := by
  constructor
  · intro h
    by_contra hc
    obtain ⟨w, hw, _⟩ := stv_winners_some candidates ballots hc
    rw [h] at hw
    cases hw
  · intro h
    rw [h, stv_nil]

/-! ### Score conservation (claim C4) -/

lemma list_sum_swap (f : ℕ → Ballot → ℚ) (l : List ℕ) (m : List Ballot) :
    (l.map (fun a => (m.map (f a)).sum)).sum
      = (m.map (fun b => (l.map (fun a => f a b)).sum)).sum := by
  induction l with
  | nil => simp
  | cons a l ih =>
    simp only [List.map_cons, List.sum_cons, ih, List.sum_map_add]

lemma sum_indicator_one (l : List ℕ) (a : ℕ) (hn : l.Nodup) (ha : a ∈ l) :
    (l.map (fun c => if c = a then (1 : ℚ) else 0)).sum = 1 := by
  induction l with
  | nil => cases ha
  | cons x l ih =>
    by_cases hx : x = a
    · subst hx
      have hnot : x ∉ l := (List.nodup_cons.mp hn).1
      have hz : (l.map (fun c => if c = x then (1 : ℚ) else 0)).sum = 0 := by
        apply List.sum_eq_zero
        intro q hq
        obtain ⟨c, hc, hcq⟩ := List.mem_map.mp hq
        have hcx : ¬ c = x := fun h => hnot (h ▸ hc)
        rw [if_neg hcx] at hcq
        exact hcq.symm
      simp [hz]
    · have ha' : a ∈ l := by
        rcases List.mem_cons.mp ha with h | h
        · exact absurd h.symm hx
        · exact h
      simp only [List.map_cons, List.sum_cons, if_neg hx, zero_add]
      exact ih (List.nodup_cons.mp hn).2 ha'

lemma sum_count_eq_length (g l : List ℕ) (hn : l.Nodup) (hsub : ∀ x ∈ g, x ∈ l) :
    (l.map (fun c => (g.count c : ℚ))).sum = (g.length : ℚ) := by
  induction g with
  | nil => simp
  | cons a g ih =>
    have hcount : ∀ c, ((a :: g).count c : ℚ)
        = (g.count c : ℚ) + (if c = a then (1 : ℚ) else 0) := by
      intro c
      by_cases hca : c = a <;> simp [List.count_cons, hca]
    have hmap : l.map (fun c => ((a :: g).count c : ℚ))
        = l.map (fun c => (g.count c : ℚ) + (if c = a then (1 : ℚ) else 0)) :=
      List.map_congr_left fun c _ => hcount c
    rw [hmap, List.sum_map_add, ih (fun x hx => hsub x (List.mem_cons_of_mem a hx)),
      sum_indicator_one l a hn (hsub a (List.mem_cons_self a g))]
    push_cast [List.length_cons]
    ring

lemma firstNonemptyRem_eq_none_iff (remaining : List ℕ) (r : Ranking) :
    firstNonemptyRem remaining r = none ↔ nonExhausted remaining r = false := by
  simp [firstNonemptyRem, nonExhausted, List.find?_eq_none, List.isEmpty_iff,
    groupRem, List.filter_eq_nil_iff]

lemma sum_ballotScore (remaining : List ℕ) (b : Ballot) (hn : remaining.Nodup) :
    (remaining.map (ballotScore remaining b)).sum
      = if nonExhausted remaining b.2 then (b.1 : ℚ) else 0 := by
  rcases hfr : firstNonemptyRem remaining b.2 with _ | g
  · have hex : nonExhausted remaining b.2 = false :=
      (firstNonemptyRem_eq_none_iff remaining b.2).mp hfr
    rw [hex]
    simp only [if_neg Bool.false_ne_true]
    rw [List.sum_eq_zero]
    intro q hq
    obtain ⟨c, _, hcq⟩ := List.mem_map.mp hq
    rw [ballotScore, hfr] at hcq
    exact hcq.symm
  · have hpred := List.find?_some hfr
    have hmem := List.mem_of_find?_eq_some hfr
    obtain ⟨g0, hg0, hgeq⟩ := List.mem_map.mp hmem
    have hgne : g ≠ [] := by
      intro h
      rw [h] at hpred
      simp at hpred
    have hsub : ∀ x ∈ g, x ∈ remaining := by
      intro x hx
      rw [← hgeq] at hx
      exact of_decide_eq_true (List.mem_filter.mp hx).2
    have hex : nonExhausted remaining b.2 = true := by
      rcases hb : nonExhausted remaining b.2 with _ | _
      · rw [← firstNonemptyRem_eq_none_iff] at hb
        rw [hb] at hfr
        cases hfr
      · rfl
    rw [hex, if_pos rfl]
    have hbs : remaining.map (ballotScore remaining b)
        = remaining.map (fun c => (g.count c : ℚ) * ((b.1 : ℚ) / (g.length : ℚ))) := by
      refine List.map_congr_left fun c _ => ?_
      rw [ballotScore, hfr]
    rw [hbs, List.sum_map_mul_right, sum_count_eq_length g remaining hn hsub]
    have hlen0 : (g.length : ℚ) ≠ 0 := by
      simpa using fun h => hgne (List.length_eq_zero.mp h)
    rw [mul_comm, div_mul_cancel₀ _ hlen0]

lemma sum_if_eq_filter_sum (ballots : List Ballot) (p : Ballot → Bool) :
    (ballots.map (fun b => if p b then (b.1 : ℚ) else 0)).sum
      = ((ballots.filter p).map (fun b => (b.1 : ℚ))).sum := by
  induction ballots with
  | nil => simp
  | cons b bs ih => by_cases hb : p b <;> simp [hb, ih]

lemma length_le_flatten_length (gs : List (List ℕ)) (h : ∀ x ∈ gs, x ≠ []) :
    gs.length ≤ gs.flatten.length := by
  induction gs with
  | nil => simp
  | cons g gs ih =>
    have hg : 0 < g.length := List.length_pos.mpr (h g (List.mem_cons_self g gs))
    have hrec := ih fun x hx => h x (List.mem_cons_of_mem g hx)
    simp only [List.flatten_cons, List.length_append, List.length_cons]
    omega

/-! ### Example elections used in concrete statements -/

/-- The candidate set of the spec's end-to-end example. -/
def exCands : List ℕ := [1, 2, 3]

/-- The ballot list of the spec's end-to-end example. -/
def exBallots : List Ballot :=
  [(3, [[1], [2], [3]]), (2, [[2], [1], [3]]), (1, [[3], [1], [2]])]

/-- A completely tied two-candidate election: both candidates are removed
    together in a single round. -/
def tieCands : List ℕ := [1, 2]

/-- Ballots of the tied election. -/
def tieBallots : List Ballot := [(1, [[1]]), (1, [[2]])]

/-! ### Claims C2 through C6 -/

/-- C2, counterexample: in the tied election a single round removes both
    candidates, yet the code's elimination order has two entries (the
    candidates appended individually), not one group entry per round as the
    claim asserts; the grouped view of the same run has a single entry. -/
theorem claim_C2_cex :
    (stv tieCands tieBallots).2 = [1, 2] ∧
      stvGrouped tieCands tieBallots = [[1, 2]] ∧
      (stv tieCands tieBallots).1 = some [1, 2] ∧
      (stv tieCands tieBallots).2.length ≠ (stvGrouped tieCands tieBallots).length := by
  refine ⟨?_, ?_, ?_, ?_⟩ <;> with_unfolding_all decide

/-- C2, amended: the winners are exactly the members of the last removal
    group, but the code appends the co-lowest candidates of a round to the
    elimination order individually, so the flat elimination order is the
    flattening of the round-group sequence and the winner list is the last
    round group (never `None`, never empty, for a non-empty candidate set). -/
theorem claim_C2 (candidates : List ℕ) (ballots : List Ballot)
    (h : candidates ≠ []) :
    (stv candidates ballots).2 = (stvGrouped candidates ballots).flatten ∧
      (stv candidates ballots).1 = (stvGrouped candidates ballots).getLast? ∧
      (stv candidates ballots).1 ≠ none ∧
      (stv candidates ballots).1 ≠ some [] := by
  obtain ⟨w, hw, hne⟩ := stv_winners_some candidates ballots h
  refine ⟨stv_elim_eq_flatten _ _, stv_winners_eq_getLast _ _, ?_, ?_⟩
  · rw [hw]; simp
  · rw [hw]; simpa using hne

/-- C2, witness at the end-to-end example election. -/
theorem claim_C2_witness :
    (stv exCands exBallots).2 = (stvGrouped exCands exBallots).flatten ∧
      (stv exCands exBallots).1 = (stvGrouped exCands exBallots).getLast? ∧
      (stv exCands exBallots).1 ≠ none ∧
      (stv exCands exBallots).1 ≠ some [] :=
  claim_C2 exCands exBallots (by decide)

/-- C3: for a non-empty, duplicate-free candidate list, `stv` terminates with
    an elimination order that is a permutation of the candidate set; every
    removal group is non-empty (each round removes at least one candidate),
    so the number of rounds is at most the number of candidates. -/
theorem claim_C3 (candidates : List ℕ) (ballots : List Ballot)
    (h1 : candidates ≠ []) (h2 : candidates.Nodup) :
    List.Perm (stv candidates ballots).2 candidates ∧
      (∀ g ∈ stvGrouped candidates ballots, g ≠ []) ∧
      (stvGrouped candidates ballots).length ≤ candidates.length := by
  obtain ⟨hperm, hnon, _⟩ := stvGrouped_spec candidates ballots
  have hded : candidates.dedup = candidates := List.dedup_eq_self.mpr h2
  rw [hded] at hperm
  have helim : List.Perm (stv candidates ballots).2 candidates := by
    rw [stv_elim_eq_flatten]; exact hperm
  refine ⟨helim, hnon, ?_⟩
  have hlen := length_le_flatten_length (stvGrouped candidates ballots) hnon
  have hflat : (stvGrouped candidates ballots).flatten.length = candidates.length :=
    hperm.length_eq
  omega

/-- C3, witness at the end-to-end example election. -/
theorem claim_C3_witness :
    List.Perm (stv exCands exBallots).2 exCands ∧
      (stvGrouped exCands exBallots).length ≤ exCands.length := by
  have h := claim_C3 exCands exBallots (by decide) (by decide)
  exact ⟨h.1, h.2.2⟩

/-- C4: in any round with a non-empty, duplicate-free remaining set, the
    scores of the remaining candidates sum to the total weight of the
    non-exhausted ballots (exactly, in rational arithmetic). -/
theorem claim_C4 (remaining : List ℕ) (ballots : List Ballot)
    (h1 : remaining ≠ []) (h2 : remaining.Nodup) :
    (remaining.map (plurality_scores remaining ballots)).sum
      = ((ballots.filter (fun b => nonExhausted remaining b.2)).map
          (fun b => (b.1 : ℚ))).sum := by
  have hunfold : remaining.map (plurality_scores remaining ballots)
      = remaining.map (fun c => (ballots.map (fun b => ballotScore remaining b c)).sum) :=
    rfl
  rw [hunfold, list_sum_swap (fun c b => ballotScore remaining b c) remaining ballots]
  have hpt : ballots.map (fun b => (remaining.map (fun c => ballotScore remaining b c)).sum)
      = ballots.map (fun b => if nonExhausted remaining b.2 then (b.1 : ℚ) else 0) := by
    refine List.map_congr_left fun b _ => ?_
    simpa using sum_ballotScore remaining b h2
  rw [hpt, sum_if_eq_filter_sum]

/-- C4, witness at round 2 of the end-to-end example. -/
theorem claim_C4_witness :
    (([1, 2] : List ℕ).map (plurality_scores [1, 2] exBallots)).sum
      = ((exBallots.filter (fun b => nonExhausted [1, 2] b.2)).map
          (fun b => (b.1 : ℚ))).sum :=
  claim_C4 [1, 2] exBallots (by decide) (by decide)

/-- C5, counterexample: on the spec's example election the code's
    elimination order is `[3, 2, 1]` — a flat list that also contains the
    final-round elimination of the winner — not `[[3], [2]]` as the claim
    states (nor its flattening `[3, 2]`, nor the grouped `[[3], [2]]`). -/
theorem claim_C5_cex :
    (stv exCands exBallots).2 = [3, 2, 1] ∧
      (stv exCands exBallots).2 ≠ ([[3], [2]] : List (List ℕ)).flatten ∧
      stvGrouped exCands exBallots ≠ [[3], [2]] := by
  refine ⟨?_, ?_, ?_⟩ <;> with_unfolding_all decide

/-- C5, amended: the example election has round-1 scores 1↦3, 2↦2, 3↦1
    (eliminating {3}), round-2 scores over {1,2} of 1↦4, 2↦2 (eliminating
    {2}), and a final third round eliminating {1}; `stv` returns winners
    `[1]` and the flat elimination order `[3, 2, 1]` (round groups
    `[[3], [2], [1]]`). -/
theorem claim_C5 :
    plurality_scores [1, 2, 3] exBallots 1 = 3 ∧
      plurality_scores [1, 2, 3] exBallots 2 = 2 ∧
      plurality_scores [1, 2, 3] exBallots 3 = 1 ∧
      plurality_scores [1, 2] exBallots 1 = 4 ∧
      plurality_scores [1, 2] exBallots 2 = 2 ∧
      stvGrouped exCands exBallots = [[3], [2], [1]] ∧
      stv exCands exBallots = (some [1], [3, 2, 1]) := by
  refine ⟨?_, ?_, ?_, ?_, ?_, ?_, ?_⟩ <;> with_unfolding_all decide

/-- C6, counterexample: for the empty candidate set the code returns the
    Python `None` sentinel as winners (the loop never runs and `last_losers`
    is still `None`), not the empty list the claim states. -/
theorem claim_C6_cex :
    (stv ([] : List ℕ) []).1 = none ∧
      (stv ([] : List ℕ) []).1 ≠ some [] ∧
      (stv ([] : List ℕ) []).2 = [] := by
  refine ⟨?_, ?_, ?_⟩ <;> simp [stv_nil]

/-- C6, amended: for the empty candidate set and any ballot list, `stv`
    returns winners `None` (not `[]`) and the empty elimination order. -/
theorem claim_C6 (ballots : List Ballot) : stv [] ballots = (none, []) :=
  stv_nil ballots

/-! ### The strategic-ballot construction (claim C7) -/

lemma flatStep_nodup (acc : List ℕ) (c : ℕ) (h : acc.Nodup) : (flatStep acc c).Nodup := by
  rw [flatStep]
  by_cases hc : c ∈ acc
  · rwa [if_pos hc]
  · rw [if_neg hc]
    simpa [List.nodup_append] using ⟨h, hc⟩

lemma foldl_flatStep_nodup (l : List ℕ) :
    ∀ acc : List ℕ, acc.Nodup → (l.foldl flatStep acc).Nodup := by
  induction l with
  | nil => intro acc h; simpa using h
  | cons x l ih =>
    intro acc h
    simpa using ih (flatStep acc x) (flatStep_nodup acc x h)

lemma flattenFirst_nodup (l : List ℕ) : (flattenFirst l).Nodup :=
  foldl_flatStep_nodup l [] List.nodup_nil

lemma build_flat_eq_flattenFirst (ranking : Ranking) (all_candidates : List ℕ) :
    all_candidates.foldl flatStep (ranking.foldl (fun acc g => g.foldl flatStep acc) [])
      = flattenFirst (ranking.flatten ++ all_candidates) := by
  rw [flattenFirst, List.foldl_append, List.foldl_flatten]

/-- C7: the strategic ballot is the first-occurrence flattening of the
    ranking's groups followed by the absent candidates of the full candidate
    list, with the target relocated to the front and the incumbent winner to
    the end (all other candidates keep their relative order), wrapped as
    singleton tie groups; in particular, on the spec's example it is
    `[[3], [1], [4], [2]]`. -/
theorem claim_C7 (ranking : Ranking) (target winner : ℕ) (all_candidates : List ℕ)
    (h1 : target ≠ winner) (h2 : target ∈ all_candidates) (h3 : winner ∈ all_candidates) :
    build_strategic_ballot_from_ranking ranking target winner all_candidates
      = ((target :: (flattenFirst (ranking.flatten ++ all_candidates)).filter
            (fun c => c != target && c != winner)) ++ [winner]).map (fun c => [c]) ∧
      build_strategic_ballot_from_ranking [[2], [1, 3]] 3 2 [1, 2, 3, 4]
        = [[3], [1], [4], [2]] := by
  refine ⟨?_, by with_unfolding_all decide⟩
  rw [build_strategic_ballot_from_ranking]
  rw [build_flat_eq_flattenFirst ranking all_candidates]
  set F := flattenFirst (ranking.flatten ++ all_candidates) with hF
  have hFnd : F.Nodup := flattenFirst_nodup _
  have h3eq : (if target ∈ F then F.erase target else F) = F.filter (· != target) := by
    by_cases ht : target ∈ F
    · rw [if_pos ht, hFnd.erase_eq_filter]
    · rw [if_neg ht, eq_comm]
      refine List.filter_eq_self.mpr ?_
      intro x hx
      simp only [bne_iff_ne, ne_eq]
      intro hxt
      exact ht (hxt ▸ hx)
  rw [h3eq]
  set l := F.filter (· != target) with hl
  have hlnd : l.Nodup := hFnd.filter _
  have hwt : (winner == target) = false := by
    simpa using fun h => h1 h.symm
  have h5eq : (if winner ∈ target :: l then (target :: l).erase winner else target :: l)
      = target :: l.filter (· != winner) := by
    by_cases hw : winner ∈ target :: l
    · rw [if_pos hw, List.erase_cons_tail (by simpa using h1), hlnd.erase_eq_filter]
    · rw [if_neg hw]
      have hwl : winner ∉ l := fun h => hw (List.mem_cons_of_mem _ h)
      rw [List.filter_eq_self.mpr]
      intro x hx
      simp only [bne_iff_ne, ne_eq]
      intro hxw
      exact hwl (hxw ▸ hx)
  rw [h5eq]
  have hff : l.filter (· != winner) = F.filter (fun c => c != target && c != winner) := by
    rw [hl, List.filter_filter]
    exact List.filter_congr fun x _ => Bool.and_comm _ _
  rw [hff]

/-- C7, witness at the spec's strategic-ranking example. -/
theorem claim_C7_witness :
    build_strategic_ballot_from_ranking [[2], [1, 3]] 3 2 [1, 2, 3, 4]
      = [[3], [1], [4], [2]] :=
  (claim_C7 [[2], [1, 3]] 3 2 [1, 2, 3, 4] (by decide) (by decide) (by decide)).2

/-! ### The coalition substitution (claims C9 and C10) -/

lemma replaceType_gt (k : ℕ) :
    ∀ (l : List Ballot) (t idx : ℕ), t < idx → replaceType t k idx l = l := by
  intro l
  induction l with
  | nil => intro t idx _; rfl
  | cons b rest ih =>
    intro t idx hlt
    obtain ⟨w, r⟩ := b
    rw [replaceType]
    rw [if_neg (by omega)]
    rw [ih t (idx + 1) (by omega)]

lemma replaceType_shift (k : ℕ) :
    ∀ (l : List Ballot) (t idx : ℕ), replaceType (t + 1) k (idx + 1) l = replaceType t k idx l := by
  intro l
  induction l with
  | nil => intro t idx; rfl
  | cons b rest ih =>
    intro t idx
    obtain ⟨w, r⟩ := b
    rw [replaceType, replaceType]
    by_cases h : idx = t
    · rw [if_pos (by omega), if_pos h, ih]
    · rw [if_neg (by omega), if_neg h, ih]

lemma apply_manipulation_eq (ballots : List Ballot) (i k : ℕ) (strategic : Ranking)
    (h : i < ballots.length) :
    apply_manipulation ballots i k strategic
      = ballots.take i
        ++ (if (ballots.getD i dBallot).1 - k > 0 then
              [((ballots.getD i dBallot).1 - k, (ballots.getD i dBallot).2)]
            else [])
        ++ ballots.drop (i + 1) ++ [(k, strategic)] := by
  rw [apply_manipulation]
  have hmain : ∀ (l : List Ballot) (i : ℕ), i < l.length →
      replaceType i k 0 l
        = l.take i
          ++ (if (l.getD i dBallot).1 - k > 0 then
                [((l.getD i dBallot).1 - k, (l.getD i dBallot).2)]
              else [])
          ++ l.drop (i + 1) := by
    intro l
    induction l with
    | nil => intro i hi; simp at hi
    | cons b rest ih =>
      intro i hi
      obtain ⟨w, r⟩ := b
      cases i with
      | zero =>
        rw [replaceType, if_pos rfl, replaceType_gt k rest 0 1 (by omega)]
        simp [List.getD]
      | succ i =>
        rw [replaceType, if_neg (by omega), replaceType_shift, ih i (by simpa using hi)]
        simp [List.getD]
  rw [hmain ballots i h]

/-- C9: the coalition substitution keeps the prefix before the touched
    ballot-type index and the suffix after it unchanged and in order,
    replaces the touched type by its weight-reduced copy (dropping it when
    the remaining weight is zero or negative), and appends the single new
    strategic ballot type of weight `k` at the end. -/
theorem claim_C9 (ballots : List Ballot) (i k : ℕ) (strategic : Ranking)
    (h : i < ballots.length) :
    apply_manipulation ballots i k strategic
      = ballots.take i
        ++ (if (ballots.getD i dBallot).1 - k > 0 then
              [((ballots.getD i dBallot).1 - k, (ballots.getD i dBallot).2)]
            else [])
        ++ ballots.drop (i + 1) ++ [(k, strategic)] :=
  apply_manipulation_eq ballots i k strategic h

/-- C9, witness: substituting 1 voter out of the middle type of the
    end-to-end example ballots. -/
theorem claim_C9_witness :
    apply_manipulation exBallots 1 1 [[3], [2], [1]]
      = exBallots.take 1
        ++ (if (exBallots.getD 1 dBallot).1 - 1 > 0 then
              [((exBallots.getD 1 dBallot).1 - 1, (exBallots.getD 1 dBallot).2)]
            else [])
        ++ exBallots.drop 2 ++ [(1, [[3], [2], [1]])] :=
  claim_C9 exBallots 1 1 [[3], [2], [1]] (by decide)

/-- C10: under the search's preconditions (positive weights, index in range,
    `1 ≤ k ≤` touched weight) the substituted ballot list again has only
    positive weights and the same total weight as the input. -/
theorem claim_C10 (ballots : List Ballot) (i k : ℕ) (strategic : Ranking)
    (hpos : ∀ b ∈ ballots, 0 < b.1) (hi : i < ballots.length)
    (hk1 : 1 ≤ k) (hk2 : k ≤ (ballots.getD i dBallot).1) :
    (∀ b ∈ apply_manipulation ballots i k strategic, 0 < b.1) ∧
      ((apply_manipulation ballots i k strategic).map (fun b => b.1)).sum
        = (ballots.map (fun b => b.1)).sum := by
  rw [apply_manipulation_eq ballots i k strategic hi]
  set w := (ballots.getD i dBallot).1 with hw
  have hsplit : ballots = ballots.take i ++ (ballots.getD i dBallot) :: ballots.drop (i + 1) := by
    have hd : ballots.drop i = ballots.getD i dBallot :: ballots.drop (i + 1) := by
      rw [List.getD_eq_getElem ballots dBallot hi]
      exact List.drop_eq_getElem_cons hi
    rw [← hd, List.take_append_drop]
  constructor
  · intro b hb
    simp only [List.mem_append, List.mem_singleton] at hb
    rcases hb with ((hb | hb) | hb) | hb
    · exact hpos b (List.take_subset i ballots hb)
    · by_cases hpos' : w - k > 0
      · rw [if_pos hpos'] at hb
        simp only [List.mem_singleton] at hb
        rw [hb]
        simpa using hpos'
      · rw [if_neg hpos'] at hb
        cases hb
    · exact hpos b (List.drop_subset (i + 1) ballots hb)
    · rw [hb]
      omega
  · have hrhs : (ballots.map (fun b => b.1)).sum
        = ((ballots.take i).map (fun b => b.1)).sum + w
          + ((ballots.drop (i + 1)).map (fun b => b.1)).sum := by
      conv_lhs => rw [hsplit]
      simp only [List.map_append, List.map_cons, List.sum_append, List.sum_cons, ← hw]
      omega
    rw [hrhs]
    by_cases hpos' : w - k > 0
    · rw [if_pos hpos']
      simp only [List.map_append, List.map_cons, List.map_nil, List.sum_append,
        List.sum_cons, List.sum_nil]
      omega
    · rw [if_neg hpos']
      simp only [List.map_append, List.map_cons, List.map_nil, List.sum_append,
        List.sum_cons, List.sum_nil]
      omega

/-- C10, witness: moving 1 voter out of the middle type of the end-to-end
    example ballots preserves positivity and the electorate size. -/
theorem claim_C10_witness :
    (∀ b ∈ apply_manipulation exBallots 1 1 [[3], [2], [1]], 0 < b.1) ∧
      ((apply_manipulation exBallots 1 1 [[3], [2], [1]]).map (fun b => b.1)).sum
        = (exBallots.map (fun b => b.1)).sum :=
  claim_C10 exBallots 1 1 [[3], [2], [1]] (by decide) (by decide) (by decide) (by decide)

/-! ### Invariants of the manipulation search (claims C1 and C8) -/

lemma winners_single_iff (ws : List ℕ) (t : ℕ) :
    (ws.length = 1 ∧ ws.headI = t) ↔ ws = [t] := by
  cases ws with
  | nil => simp
  | cons a l =>
    cases l with
    | nil => simp [List.headI]
    | cons b l' => simp [List.headI]

lemma searchKs_ok (candidates : List ℕ) (ballots : List Ballot) (target ti : ℕ)
    (strat : Ranking) (hc : candidates ≠ []) :
    ∀ l, ∃ o, searchKs candidates ballots target ti strat l = .ok o := by
  intro l
  induction l with
  | nil => exact ⟨none, rfl⟩
  | cons k ks ih =>
    obtain ⟨w, hw, -⟩ :=
      stv_winners_some candidates (apply_manipulation ballots ti k strat) hc
    rcases ih with ⟨o, ho⟩
    by_cases hcond : w.length = 1 ∧ w.headI = target
    · exact ⟨some (k, (stv candidates (apply_manipulation ballots ti k strat)).2),
        by simp [searchKs, hw, hcond]⟩
    · exact ⟨o, by simp [searchKs, hw, hcond, ho]⟩

lemma searchKs_none (candidates : List ℕ) (ballots : List Ballot) (target ti : ℕ)
    (strat : Ranking) :
    ∀ (n s : ℕ), searchKs candidates ballots target ti strat (List.range' s n) = .ok none →
      ∀ k, s ≤ k → k < s + n →
        (stv candidates (apply_manipulation ballots ti k strat)).1 ≠ some [target] := by
  intro n
  induction n with
  | zero => intro s _ k hk1 hk2; omega
  | succ n ih =>
    intro s h k hk1 hk2
    rw [List.range'_succ s n 1] at h
    rcases hst : (stv candidates (apply_manipulation ballots ti s strat)).1 with _ | ws
    · rw [searchKs, hst] at h
      simp at h
    · rw [searchKs, hst] at h
      by_cases hcond : ws.length = 1 ∧ ws.headI = target
      · simp only [if_pos hcond] at h
        simp at h
      · simp only [if_neg hcond] at h
        by_cases hks : k = s
        · subst hks
          rw [hst]
          intro hsome
          apply hcond
          rw [winners_single_iff]
          injection hsome
        · exact ih (s + 1) h k (by omega) (by omega)

lemma searchKs_some (candidates : List ℕ) (ballots : List Ballot) (target ti : ℕ)
    (strat : Ranking) :
    ∀ (n s k : ℕ) (e : List ℕ),
      searchKs candidates ballots target ti strat (List.range' s n) = .ok (some (k, e)) →
      s ≤ k ∧ k < s + n ∧
        (stv candidates (apply_manipulation ballots ti k strat)).1 = some [target] ∧
        e = (stv candidates (apply_manipulation ballots ti k strat)).2 ∧
        (∀ k', s ≤ k' → k' < k →
          (stv candidates (apply_manipulation ballots ti k' strat)).1 ≠ some [target]) := by
  intro n
  induction n with
  | zero => intro s k e h; cases h
  | succ n ih =>
    intro s k e h
    rw [List.range'_succ s n 1] at h
    rcases hst : (stv candidates (apply_manipulation ballots ti s strat)).1 with _ | ws
    · rw [searchKs, hst] at h
      simp at h
    · rw [searchKs, hst] at h
      by_cases hcond : ws.length = 1 ∧ ws.headI = target
      · simp only [if_pos hcond, Except.ok.injEq, Option.some.injEq, Prod.mk.injEq] at h
        obtain ⟨hks, he⟩ := h
        subst hks
        refine ⟨le_rfl, by omega, ?_, he.symm, ?_⟩
        · rw [hst, (winners_single_iff ws target).mp hcond]
        · intro k' h1 h2; omega
      · simp only [if_neg hcond] at h
        obtain ⟨hk1, hk2, hsucc, he, hmin⟩ := ih (s + 1) k e h
        refine ⟨by omega, by omega, hsucc, he, ?_⟩
        intro k' h1 h2
        by_cases hks : k' = s
        · subst hks
          rw [hst]
          intro hsome
          apply hcond
          rw [winners_single_iff]
          injection hsome
        · exact hmin k' (by omega) h2

lemma updateBest_spec (best : Option MResult) (r : MResult) :
    ∃ r1, updateBest best r = some r1 ∧ (r1 = r ∨ best = some r1) ∧
      r1.coalition_size ≤ r.coalition_size ∧
      (∀ r0, best = some r0 → r1.coalition_size ≤ r0.coalition_size) := by
  cases best with
  | none =>
    refine ⟨r, rfl, Or.inl rfl, le_rfl, ?_⟩
    intro r0 h0
    cases h0
  | some b =>
    by_cases h : r.coalition_size < b.coalition_size
    · refine ⟨r, by simp [updateBest, h], Or.inl rfl, le_rfl, ?_⟩
      intro r0 h0
      injection h0 with h0
      subst h0
      omega
    · refine ⟨b, by simp [updateBest, h], Or.inr rfl, by omega, ?_⟩
      intro r0 h0
      injection h0 with h0
      subst h0
      exact le_rfl

lemma searchTypes_spec (candidates : List ℕ) (ballots : List Ballot) (ow target : ℕ)
    (hc : candidates ≠ []) (htc : target ∈ candidates) (htw : target ≠ ow) :
    ∀ (rest : List Ballot) (ti : ℕ) (best : Option MResult),
      ballots.drop ti = rest →
      (∀ r0, best = some r0 → GoodRes candidates ballots ow r0) →
      ∃ best', searchTypes candidates ow target ballots ti rest best = .ok best' ∧
        (∀ r0, best' = some r0 → GoodRes candidates ballots ow r0) ∧
        (∀ r0, best = some r0 → ∃ r1, best' = some r1 ∧
          r1.coalition_size ≤ r0.coalition_size) ∧
        (∀ i k, ti ≤ i → Elig candidates ballots ow target i k →
          Succ candidates ballots ow target i k →
          ∃ r1, best' = some r1 ∧ r1.coalition_size ≤ k) := by
  intro rest
  induction rest with
  | nil =>
    intro ti best hdrop hgood
    refine ⟨best, rfl, hgood, ?_, ?_⟩
    · intro r0 h0
      exact ⟨r0, h0, le_rfl⟩
    · intro i k _ helig _
      exfalso
      have hlen : ballots.length ≤ ti := List.drop_eq_nil_iff.mp hdrop
      have hi : i < ballots.length := helig.2.2.1
      omega
  | cons b rest ih =>
    intro ti best hdrop hgood
    obtain ⟨w, r⟩ := b
    have hge : ballots[ti]? = some (w, r) := by
      rw [← List.head?_drop, hdrop, List.head?_cons]
    have hgetD : ballots.getD ti dBallot = (w, r) := by
      rw [List.getD_eq_getElem?_getD, hge, Option.getD_some]
    have hdrop' : ballots.drop (ti + 1) = rest := by
      rw [← List.tail_drop, hdrop, List.tail_cons]
    have hlt : ti < ballots.length := by
      by_contra hle
      push_neg at hle
      rw [List.drop_eq_nil_iff.mpr hle] at hdrop
      cases hdrop
    by_cases hpref : prefers_over r target ow = true
    · obtain ⟨o, ho⟩ := searchKs_ok candidates ballots target ti
        (build_strategic_ballot_from_ranking r target ow candidates) hc (List.range' 1 w)
      have hstrat : stratOf candidates ballots ow target ti
          = build_strategic_ballot_from_ranking r target ow candidates := by
        rw [stratOf, hgetD]
      rcases o with _ | ⟨k0, e0⟩
      · obtain ⟨best', hrun, hgood', hmono', hcov'⟩ := ih (ti + 1) best hdrop' hgood
        refine ⟨best', ?_, hgood', hmono', ?_⟩
        · rw [searchTypes, if_pos hpref, ho]
          exact hrun
        · intro i k hti helig hsucc
          by_cases hi : i = ti
          · exfalso
            subst hi
            have hnone := searchKs_none candidates ballots target i
              (build_strategic_ballot_from_ranking r target ow candidates) w 1 ho
            have hk1 : 1 ≤ k := helig.2.2.2.2.1
            have hk2 : k ≤ w := by
              have h2 := helig.2.2.2.2.2
              rwa [hgetD] at h2
            rw [Succ, hstrat] at hsucc
            exact hnone k hk1 (by omega) hsucc
          · exact hcov' i k (by omega) helig hsucc
      · obtain ⟨hk1, hk2, hsucc0, he0, hmin0⟩ := searchKs_some candidates ballots target ti
          (build_strategic_ballot_from_ranking r target ow candidates) w 1 k0 e0 ho
        have hgoodNew : GoodRes candidates ballots ow
            ⟨ow, k0, target, ti, r,
              build_strategic_ballot_from_ranking r target ow candidates, e0⟩ := by
          refine ⟨rfl, ⟨htc, htw, hlt, ?_, hk1, ?_⟩, ?_, ?_, ?_, ?_⟩
          · rw [hgetD]
            exact hpref
          · rw [hgetD]
            show k0 ≤ w
            omega
          · rw [hgetD]
          · rw [hstrat]
          · rw [Succ, hstrat]
            exact hsucc0
          · exact he0
        obtain ⟨r1, hub, hubor, huble, hubmono⟩ := updateBest_spec best
          ⟨ow, k0, target, ti, r,
            build_strategic_ballot_from_ranking r target ow candidates, e0⟩
        have hgood1 : ∀ r0, updateBest best
            ⟨ow, k0, target, ti, r,
              build_strategic_ballot_from_ranking r target ow candidates, e0⟩ = some r0 →
            GoodRes candidates ballots ow r0 := by
          intro r0 h0
          rw [hub] at h0
          injection h0 with h0
          subst h0
          rcases hubor with h | h
          · rw [h]
            exact hgoodNew
          · exact hgood r1 h
        obtain ⟨best', hrun, hgood', hmono', hcov'⟩ := ih (ti + 1) _ hdrop' hgood1
        refine ⟨best', ?_, hgood', ?_, ?_⟩
        · rw [searchTypes, if_pos hpref, ho]
          exact hrun
        · intro r0 h0
          obtain ⟨r2, hb2, hle2⟩ := hmono' r1 hub
          exact ⟨r2, hb2, le_trans hle2 (hubmono r0 h0)⟩
        · intro i k hti helig hsucc
          by_cases hi : i = ti
          · subst hi
            have hk2' : k ≤ w := by
              have h2 := helig.2.2.2.2.2
              rwa [hgetD] at h2
            have hk1' : 1 ≤ k := helig.2.2.2.2.1
            rw [Succ, hstrat] at hsucc
            have hge0 : k0 ≤ k := by
              by_contra hlt'
              exact hmin0 k hk1' (by omega) hsucc
            obtain ⟨r2, hb2, hle2⟩ := hmono' r1 hub
            refine ⟨r2, hb2, ?_⟩
            have hnr : (⟨ow, k0, target, i, r,
                build_strategic_ballot_from_ranking r target ow candidates,
                e0⟩ : MResult).coalition_size = k0 := rfl
            rw [hnr] at huble
            omega
          · exact hcov' i k (by omega) helig hsucc
    · obtain ⟨best', hrun, hgood', hmono', hcov'⟩ := ih (ti + 1) best hdrop' hgood
      refine ⟨best', ?_, hgood', hmono', ?_⟩
      · rw [searchTypes, if_neg hpref]
        exact hrun
      · intro i k hti helig hsucc
        by_cases hi : i = ti
        · exfalso
          subst hi
          have h2 := helig.2.2.2.1
          rw [hgetD] at h2
          exact hpref h2
        · exact hcov' i k (by omega) helig hsucc

lemma searchTargets_spec (candidates : List ℕ) (ballots : List Ballot) (ow : ℕ)
    (hc : candidates ≠ []) :
    ∀ (ts : List ℕ) (best : Option MResult),
      (∀ t ∈ ts, t ∈ candidates) →
      (∀ r0, best = some r0 → GoodRes candidates ballots ow r0) →
      ∃ best', searchTargets candidates ballots ow ts best = .ok best' ∧
        (∀ r0, best' = some r0 → GoodRes candidates ballots ow r0) ∧
        (∀ r0, best = some r0 → ∃ r1, best' = some r1 ∧
          r1.coalition_size ≤ r0.coalition_size) ∧
        (∀ t i k, t ∈ ts → Elig candidates ballots ow t i k →
          Succ candidates ballots ow t i k →
          ∃ r1, best' = some r1 ∧ r1.coalition_size ≤ k) := by
  intro ts
  induction ts with
  | nil =>
    intro best _ hgood
    refine ⟨best, rfl, hgood, fun r0 h0 => ⟨r0, h0, le_rfl⟩, ?_⟩
    intro t i k ht
    cases ht
  | cons t ts ih =>
    intro best hts hgood
    by_cases htw : t = ow
    · obtain ⟨best', hrun, hgood', hmono', hcov'⟩ :=
        ih best (fun x hx => hts x (List.mem_cons_of_mem t hx)) hgood
      refine ⟨best', ?_, hgood', hmono', ?_⟩
      · rw [searchTargets, if_pos htw]
        exact hrun
      · intro t' i k ht' helig hsucc
        rcases List.mem_cons.mp ht' with h | h
        · exfalso
          subst h
          exact helig.2.1 htw
        · exact hcov' t' i k h helig hsucc
    · obtain ⟨best1, hrun1, hgood1, hmono1, hcov1⟩ := searchTypes_spec candidates ballots ow t
        hc (hts t (List.mem_cons_self t ts)) htw ballots 0 best (by simp) hgood
      obtain ⟨best', hrun, hgood', hmono', hcov'⟩ :=
        ih best1 (fun x hx => hts x (List.mem_cons_of_mem t hx)) hgood1
      refine ⟨best', ?_, hgood', ?_, ?_⟩
      · rw [searchTargets, if_neg htw, hrun1]
        exact hrun
      · intro r0 h0
        obtain ⟨r1, hb1, hle1⟩ := hmono1 r0 h0
        obtain ⟨r2, hb2, hle2⟩ := hmono' r1 hb1
        exact ⟨r2, hb2, le_trans hle2 hle1⟩
      · intro t' i k ht' helig hsucc
        rcases List.mem_cons.mp ht' with h | h
        · subst h
          obtain ⟨r1, hb1, hle1⟩ := hcov1 i k (Nat.zero_le i) helig hsucc
          obtain ⟨r2, hb2, hle2⟩ := hmono' r1 hb1
          exact ⟨r2, hb2, le_trans hle2 hle1⟩
        · exact hcov' t' i k h helig hsucc

/-- C1: when the search returns a result, (1) the result's coalition choice is
    eligible and successful — moving `coalition_size` voters of the recorded
    type to the strategic ranking built for (target, type) makes the winner
    list exactly `[target]` — and (2) no eligible coalition choice of strictly
    smaller size succeeds for any target and ballot type: the returned size is
    globally minimal. -/
theorem claim_C1 (candidates : List ℕ) (ballots : List Ballot) (res : MResult)
    (h : find_smallest_manipulating_coalition candidates ballots = .ok (some res)) :
    (stv candidates ballots).1 = some [res.orig_winner] ∧
      (Elig candidates ballots res.orig_winner res.target res.type_index
          res.coalition_size ∧
        res.strategic_ballot
          = stratOf candidates ballots res.orig_winner res.target res.type_index ∧
        Succ candidates ballots res.orig_winner res.target res.type_index
          res.coalition_size) ∧
      (∀ t i k, Elig candidates ballots res.orig_winner t i k →
        k < res.coalition_size →
        ¬ Succ candidates ballots res.orig_winner t i k) := by
  rw [find_smallest_manipulating_coalition] at h
  rcases hw : (stv candidates ballots).1 with _ | l
  · rw [hw] at h
    simp at h
  · rw [hw] at h
    by_cases hlen : l.length ≠ 1
    · simp only [if_pos hlen] at h
      simp at h
    · simp only [if_neg hlen] at h
      push_neg at hlen
      have hcand : candidates ≠ [] := by
        intro hnil
        rw [hnil, stv_nil] at hw
        cases hw
      obtain ⟨best', hrun, hgood', _, hcov'⟩ :=
        searchTargets_spec candidates ballots l.headI hcand candidates none
          (fun t ht => ht) (by intro r0 h0; cases h0)
      rw [hrun] at h
      injection h with h
      have hgood := hgood' res h
      have how : res.orig_winner = l.headI := hgood.1
      have hl : l = [l.headI] := by
        rcases List.length_eq_one.mp hlen with ⟨a, ha⟩
        rw [ha]
        rfl
      refine ⟨?_, ⟨?_, ?_, ?_⟩, ?_⟩
      · rw [how, ← hl]
      · rw [how]
        exact hgood.2.1
      · rw [how]
        exact hgood.2.2.2.1
      · rw [how]
        exact hgood.2.2.2.2.1
      · intro t i k helig hklt hsucc
        rw [how] at helig hsucc
        obtain ⟨r1, hb1, hle1⟩ := hcov' t i k helig.1 helig hsucc
        rw [h] at hb1
        injection hb1 with hb1
        rw [hb1] at hklt
        omega

/-- The example election on which the coalition search succeeds. -/
def exMCands : List ℕ := [1, 2, 3]

/-- Ballot list of the manipulable example: the incumbent winner is 1, and a
    single voter of the second type can make 3 the winner. -/
def exMBallots : List Ballot :=
  [(2, [[1], [2], [3]]), (2, [[2], [3], [1]]), (1, [[3], [1], [2]])]

/-- The result record the search returns on the manipulable example. -/
def exMRes : MResult := ⟨1, 1, 3, 1, [[2], [3], [1]], [[3], [2], [1]], [2, 1, 3]⟩

/-- C1, witness: on the manipulable example the search returns `exMRes`, and
    the returned coalition choice is eligible and successful. -/
theorem claim_C1_witness :
    (stv exMCands exMBallots).1 = some [exMRes.orig_winner] ∧
      (Elig exMCands exMBallots exMRes.orig_winner exMRes.target exMRes.type_index
          exMRes.coalition_size ∧
        exMRes.strategic_ballot
          = stratOf exMCands exMBallots exMRes.orig_winner exMRes.target
              exMRes.type_index ∧
        Succ exMCands exMBallots exMRes.orig_winner exMRes.target exMRes.type_index
          exMRes.coalition_size) := by
  have h := claim_C1 exMCands exMBallots exMRes (by with_unfolding_all rfl)
  exact ⟨h.1, h.2.1⟩

/-- C8, counterexample: for the empty candidate set the function does not
    return the sentinel — `stv` yields `None` winners and `len(None)` raises
    an uncaught `TypeError`, modelled by `Except.error ()`, so the claim's
    "never fails otherwise" is violated. -/
theorem claim_C8_cex :
    find_smallest_manipulating_coalition ([] : List ℕ) [] = .error () ∧
      (Except.error () : Except Unit (Option MResult)) ≠ .ok none := by
  constructor
  · rfl
  · intro h
    cases h

/-- C8, amended: for every NON-empty candidate list the function never
    raises, returns the sentinel `None` exactly when the unmodified
    tabulation's winner list does not have size one or when no eligible
    coalition choice succeeds, and otherwise returns a result record. -/
theorem claim_C8 (candidates : List ℕ) (ballots : List Ballot)
    (hc : candidates ≠ []) :
    (find_smallest_manipulating_coalition candidates ballots ≠ .error ()) ∧
      (∀ l, (stv candidates ballots).1 = some l → l.length ≠ 1 →
        find_smallest_manipulating_coalition candidates ballots = .ok none) ∧
      (∀ l, (stv candidates ballots).1 = some l → l.length = 1 →
        (find_smallest_manipulating_coalition candidates ballots = .ok none ↔
          ∀ t i k, Elig candidates ballots l.headI t i k →
            ¬ Succ candidates ballots l.headI t i k)) := by
  obtain ⟨w0, hw0, -⟩ := stv_winners_some candidates ballots hc
  obtain ⟨best', hrun, hgood', _, hcov'⟩ :=
    searchTargets_spec candidates ballots w0.headI hc candidates none
      (fun t ht => ht) (by intro r0 h0; cases h0)
  have hfind : find_smallest_manipulating_coalition candidates ballots
      = if w0.length ≠ 1 then .ok none
        else searchTargets candidates ballots w0.headI candidates none := by
    rw [find_smallest_manipulating_coalition, hw0]
  refine ⟨?_, ?_, ?_⟩
  · rw [hfind]
    by_cases hlen : w0.length ≠ 1
    · rw [if_pos hlen]
      intro h0
      cases h0
    · rw [if_neg hlen, hrun]
      intro h0
      cases h0
  · intro l hl hlen
    rw [hw0] at hl
    injection hl with hl
    subst hl
    rw [hfind, if_pos hlen]
  · intro l hl hlen
    rw [hw0] at hl
    injection hl with hl
    subst hl
    rw [hfind, if_neg (by omega), hrun]
    constructor
    · intro hnone t i k helig hsucc
      injection hnone with hnone
      obtain ⟨r1, hb1, _⟩ := hcov' t i k helig.1 helig hsucc
      rw [hnone] at hb1
      cases hb1
    · intro hall
      rcases hbest : best' with _ | r
      · rfl
      · exfalso
        have hgood := hgood' r hbest
        exact hall r.target r.type_index r.coalition_size hgood.2.1 hgood.2.2.2.2.1

/-- C8, witness: a two-candidate election with a safe incumbent — the search
    completes without error and returns the sentinel, and indeed no eligible
    coalition choice succeeds. -/
theorem claim_C8_witness :
    find_smallest_manipulating_coalition [1, 2] [(2, [[1]]), (1, [[2]])]
      ≠ .error () :=
  (claim_C8 [1, 2] [(2, [[1]]), (1, [[2]])] (by decide)).1
